import Mathlib

/-!
Verification development for `floatcsep/infrastructure/engine.py`.

The file shallowly embeds the `Task` and `TaskGraph` classes:

* Python runtime values are modelled by `Engine.PyVal` (enough structure for
  `None`, booleans, integers, strings and object instances carrying optional
  `name` and `store` attributes, with Python's default identity equality on
  instances).
* `Task` is modelled by `Engine.PTask`: the wrapped instance (`obj`, an
  `Option` so that `del self.obj` is expressible), the method name, the keyword
  arguments and the `store` field.
* `TaskGraph` is modelled by `Engine.TaskGraph`: an insertion-ordered
  association list from task identities (the Python `id` of the Task object,
  here a `Nat`) to dependency lists, together with the `_ntasks` counter.
  A separate environment `env : Nat → PTask` gives the fields of each task
  object, mirroring the fact that the dict is keyed by object identity.
* `TaskGraph.run` (serial) is modelled by a trace-producing function
  parameterised over each task's outcome, and `TaskGraph.run_parallel` by a
  nondeterministic small-step scheduler (`Engine.Step`) over states holding
  the indegree map, the ready deque, the running set, the completed counter
  and an event trace.  The step relation lets any running task finish next,
  which over-approximates every interleaving the thread pool can produce, so
  safety properties proved over all reachable states cover the real runs.
-/

namespace Engine

/-- Python-like runtime values: `None`, booleans, integers, strings, and object
instances.  An instance carries an identity (`id`), an optional `name`
attribute and an optional `store` attribute (`hasName`/`hasStore` record
whether the attribute exists at all, as `hasattr` distinguishes existence from
value). -/
inductive PyVal : Type where
  | none : PyVal
  | bool (b : Bool) : PyVal
  | int (n : Int) : PyVal
  | str (s : String) : PyVal
  | inst (id : Nat) (hasName : Bool) (nameAttr : String) (hasStore : Bool) (storeAttr : PyVal) : PyVal
  deriving DecidableEq, Repr

/-- Python exceptions relevant to the engine: `KeyError` (missing dict key),
`AttributeError` (missing attribute, e.g. `self.obj` after `del self.obj`),
and an arbitrary exception raised by a task's operation, tagged by a code. -/
inductive PyErr : Type where
  | keyError : PyErr
  | attributeError : PyErr
  | raised (code : Nat) : PyErr
  deriving DecidableEq, Repr

/-- Python `==` on the modelled values: structural on `None`, booleans,
integers and strings; default identity comparison on instances; `False`
across constructors (the engine only ever compares these kinds). -/
def pyEq : PyVal → PyVal → Bool
  | PyVal.none, PyVal.none => true
  | PyVal.bool a, PyVal.bool b => a == b
  | PyVal.int a, PyVal.int b => a == b
  | PyVal.str a, PyVal.str b => a == b
  | PyVal.inst i _ _ _ _, PyVal.inst j _ _ _ _ => i == j
  | _, _ => false

/-- Python truthiness of the modelled values (`if output:`). -/
def pyTruthy : PyVal → Bool
  | PyVal.none => false
  | PyVal.bool b => b
  | PyVal.int n => n != 0
  | PyVal.str s => s != ""
  | PyVal.inst _ _ _ _ _ => true

/-- Model of `getattr(x, "name", None)`. -/
def pyGetattrNameOrNone : PyVal → PyVal
  | PyVal.inst _ hn n _ _ => if hn then PyVal.str n else PyVal.none
  | _ => PyVal.none

/-- Model of `hasattr(x, "store")`. -/
def pyHasattrStore : PyVal → Bool
  | PyVal.inst _ _ _ hs _ => hs
  | _ => false

/-- Model of `x.store` for an instance that has the attribute. -/
def pyGetattrStore : PyVal → PyVal
  | PyVal.inst _ _ _ _ sv => sv
  | _ => PyVal.none

/-- Model of the `Task` object: `obj` is the wrapped instance (`Option`, so
that `del self.obj` is `none`), `method` the method name, `kwargs` the keyword
arguments in insertion order, and `store` the cached result field. -/
structure PTask : Type where
  obj : Option PyVal
  method : String
  kwargs : List (String × PyVal)
  store : PyVal
  deriving DecidableEq, Repr

/-- Model of `Task.__init__(instance, method, **kwargs)`: the object is
present and `store` is `None`. -/
def PTask.init (instance_ : PyVal) (method : String) (kwargs : List (String × PyVal)) : PTask :=
  { obj := some instance_, method := method, kwargs := kwargs, store := PyVal.none }

/-- Core of `Task.sign_match` once `self.obj` has been read: the translation of
`if self.obj == obj or obj == getattr(self.obj, "name", None): if meth ==
self.method: if kw_arg in self.kwargs.values(): return True` / `return False`. -/
def signMatchCore (selfObj : PyVal) (selfMethod : String)
    (selfKwargs : List (String × PyVal)) (obj meth kw : PyVal) : Bool :=
  if pyEq selfObj obj || pyEq obj (pyGetattrNameOrNone selfObj) then
    if pyEq meth (PyVal.str selfMethod) then
      (selfKwargs.map Prod.snd).any (fun v => pyEq kw v)
    else false
  else false

/-- Model of `Task.sign_match(obj, meth, kw_arg)`.  Reading `self.obj` after
`del self.obj` raises `AttributeError`; otherwise the boolean result of the
three nested conditions is returned. -/
def PTask.sign_match (t : PTask) (obj meth kw : PyVal) : Except PyErr Bool :=
  match t.obj with
  | Option.none => Except.error PyErr.attributeError
  | some so => Except.ok (signMatchCore so t.method t.kwargs obj meth kw)

/-- Model of `Task.run`.  Mirrors the source line by line: read `self.obj`
(raising `AttributeError` if deleted); if the object has a `store` attribute
reassign `self.obj = self.obj.store`; call the bound method through the call
oracle `call`; if the output is truthy, set `self.store = output` and
`del self.obj`; return the new task state and the outcome. -/
def PTask.run (call : PyVal → String → List (String × PyVal) → Except PyErr PyVal)
    (t : PTask) : PTask × Except PyErr PyVal :=
  match t.obj with
  | Option.none => (t, Except.error PyErr.attributeError)
  | some o =>
    let ob := if pyHasattrStore o then pyGetattrStore o else o
    let t1 : PTask := { t with obj := some ob }
    match call ob t.method t.kwargs with
    | Except.error e => (t1, Except.error e)
    | Except.ok v =>
      if pyTruthy v then ({ t1 with store := v, obj := Option.none }, Except.ok v)
      else (t1, Except.ok v)

/-! ## The task graph structure -/

/-- The ordered task dictionary: an association list from task identities to
dependency lists, in insertion order, together with the `_ntasks` counter. -/
structure TaskGraph : Type where
  tasks : List (Nat × List Nat)
  ntasks : Nat
  deriving DecidableEq, Repr

/-- Model of `TaskGraph.__init__`: empty ordered dict, zero counter. -/
def TaskGraph.empty : TaskGraph := { tasks := [], ntasks := 0 }

/-- Lookup in the ordered dict (first matching key, as in a Python dict whose
keys are unique). -/
def odLookup (l : List (Nat × List Nat)) (t : Nat) : Option (List Nat) :=
  match l with
  | [] => Option.none
  | p :: rest => if p.1 = t then some p.2 else odLookup rest t

/-- Assignment `d[k] = v` on the ordered dict: replace in place when the key
exists (keeping its position), append otherwise. -/
def odSet (l : List (Nat × List Nat)) (t : Nat) (v : List Nat) : List (Nat × List Nat) :=
  match l with
  | [] => [(t, v)]
  | p :: rest => if p.1 = t then (t, v) :: rest else p :: odSet rest t v

/-- Model of `TaskGraph.add(task)`: `self.tasks[task] = []` then
`self.ntasks += 1`. -/
def TaskGraph.add (g : TaskGraph) (t : Nat) : TaskGraph :=
  { tasks := odSet g.tasks t [], ntasks := g.ntasks + 1 }

/-- The scan loop of `TaskGraph.add_dependency`: iterate over the registered
tasks in insertion order, collecting those whose `sign_match` returns `True`;
an exception raised by `sign_match` propagates. -/
def scanDeps (env : Nat → PTask) (tasks : List (Nat × List Nat))
    (obj meth kw : PyVal) : Except PyErr (List Nat) :=
  match tasks with
  | [] => Except.ok []
  | p :: rest =>
    match (env p.1).sign_match obj meth kw with
    | Except.error e => Except.error e
    | Except.ok b =>
      match scanDeps env rest obj meth kw with
      | Except.error e => Except.error e
      | Except.ok more => Except.ok (if b then p.1 :: more else more)

/-- Model of `TaskGraph.add_dependency(task, dep_inst, dep_meth, dkw)`.
First the signature scan over all registered tasks; then
`self.tasks[task].extend(deps)`, which raises `KeyError` when `task` was never
registered.  Returns the (possibly unchanged) graph together with the raised
exception, if any: Python leaves the object state untouched when the lookup
raises. -/
def TaskGraph.add_dependency (env : Nat → PTask) (g : TaskGraph) (t : Nat)
    (obj meth kw : PyVal) : TaskGraph × Option PyErr :=
  match scanDeps env g.tasks obj meth kw with
  | Except.error e => (g, some e)
  | Except.ok deps =>
    match odLookup g.tasks t with
    | Option.none => (g, some PyErr.keyError)
    | some old => ({ g with tasks := odSet g.tasks t (old ++ deps) }, Option.none)

/-- Keys of the ordered task dict, in insertion order. -/
def keysOf (l : List (Nat × List Nat)) : List Nat := l.map Prod.fst

/-- Dependency list of a task, as the scheduler reads it off the dict. -/
def depsOf (l : List (Nat × List Nat)) (t : Nat) : List Nat := (odLookup l t).getD []

/-! ## Serial execution (`TaskGraph.run`)

The serial loop is `for task, deps in self.tasks.items(): ... task.run()`;
the profiling summary `self._print_prof` is only reached when no task raised.
The per-task outcome is abstracted by `res : Nat → Except PyErr PyVal`: what
`task.run()` returns for the task with that identity. -/

/-- Result of a serial run: the identities of the tasks whose `run` was
invoked, in order; the exception that escaped `TaskGraph.run`, if any; and
whether the final profiling summary was printed. -/
structure SerialResult : Type where
  started : List Nat
  err : Option PyErr
  profPrinted : Bool
  deriving DecidableEq, Repr

/-- The serial loop over the ordered dict items: each task is invoked in
insertion order; a raised exception stops the loop at once and propagates.
The bound dependency list of each item is never consulted. -/
def runSerialGo (res : Nat → Except PyErr PyVal) :
    List (Nat × List Nat) → List Nat × Option PyErr
  | [] => ([], Option.none)
  | p :: rest =>
    match res p.1 with
    | Except.error e => ([p.1], some e)
    | Except.ok _ =>
      match runSerialGo res rest with
      | (tr, e) => (p.1 :: tr, e)

/-- Model of `TaskGraph.run` (serial mode): run the loop, then print the
profiling summary only when the loop finished without an exception. -/
def TaskGraph.run (res : Nat → Except PyErr PyVal) (g : TaskGraph) : SerialResult :=
  match runSerialGo res g.tasks with
  | (tr, e) => { started := tr, err := e, profPrinted := e.isNone }

/-! ## Parallel execution (`TaskGraph.run_parallel`)

The scheduler state holds the `indegree` dict (modelled as a total function,
zero outside the registered keys), the `ready` deque, the `running` set (the
futures still in flight, here the identities of their tasks, in submission
order), the `completed` counter and an event trace.  `Event.submit t` is
appended when the controller submits `t` to the executor — the worker starts
`t.run()` only after this point — and `Event.finish t ok` when the controller
processes `t`'s completed future — `t.run()` has already returned or raised by
then.  Each task's outcome (`True` for return, `False` for raise) is given by
`outcome : Nat → Bool`. -/

/-- Scheduler trace events. -/
inductive Event : Type where
  | submit (t : Nat) : Event
  | finish (t : Nat) (ok : Bool) : Event
  deriving DecidableEq, Repr

/-- Scheduler state. -/
structure PState : Type where
  indegree : Nat → Int
  ready : List Nat
  running : List Nat
  completed : Nat
  trace : List Event

/-- Model of `_build_dependency_maps`'s indegree dict:
`indegree[t] = len(deps)` for registered tasks, unused (zero) elsewhere. -/
def buildIndegree (g : List (Nat × List Nat)) : Nat → Int :=
  fun t =>
    match odLookup g t with
    | some ds => (ds.length : Int)
    | Option.none => 0

/-- Model of `_build_dependency_maps`'s dependents dict: for each item
`(x, deps)` in insertion order, `x` is appended once per occurrence of `d`
in `deps`. -/
def dependentsMap (g : List (Nat × List Nat)) (d : Nat) : List Nat :=
  g.flatMap (fun p => (p.2.filter (fun x => x == d)).map (fun _ => p.1))

/-- The seeding / backfill loop
`while ready and len(running) < max_workers: submit(ready.popleft())`:
returns the remaining deque, the running list and the trace after the
submissions. -/
def backfillGo (k : Nat) (ready running : List Nat) (trace : List Event) :
    List Nat × List Nat × List Event :=
  match ready with
  | [] => ([], running, trace)
  | t :: rest =>
    if running.length < k then
      backfillGo k rest (running ++ [t]) (trace ++ [Event.submit t])
    else (t :: rest, running, trace)

/-- The release loop `for dep in dependents[task]: indegree[dep] -= 1;
if indegree[dep] == 0: ready.append(dep)`. -/
def releaseGo (deps : List Nat) (indeg : Nat → Int) (ready : List Nat) :
    (Nat → Int) × List Nat :=
  match deps with
  | [] => (indeg, ready)
  | d :: rest =>
    let indeg2 := Function.update indeg d (indeg d - 1)
    let ready2 := if indeg2 d = 0 then ready ++ [d] else ready
    releaseGo rest indeg2 ready2

/-- Processing of one completed future of task `t`: pop it from `running`,
catch the exception if any (`ok` records whether `t.run()` returned or
raised), `completed += 1`, release the dependents, then backfill. -/
def processFinish (g : List (Nat × List Nat)) (k : Nat) (s : PState)
    (t : Nat) (ok : Bool) : PState :=
  let running1 := s.running.erase t
  let trace1 := s.trace ++ [Event.finish t ok]
  let rel := releaseGo (dependentsMap g t) s.indegree s.ready
  let bf := backfillGo k rel.2 running1 trace1
  { indegree := rel.1, ready := bf.1, running := bf.2.1,
    completed := s.completed + 1, trace := bf.2.2 }

/-- State of `run_parallel` right after `_build_dependency_maps`, the ready
deque comprehension, and the seeding loop. -/
def initState (g : List (Nat × List Nat)) (k : Nat) : PState :=
  let indeg := buildIndegree g
  let ready0 := (keysOf g).filter (fun t => indeg t == 0)
  let bf := backfillGo k ready0 [] []
  { indegree := indeg, ready := bf.1, running := bf.2.1,
    completed := 0, trace := bf.2.2 }

/-- One scheduler step: any task whose future is in flight may be the next
one the controller observes as completed (this over-approximates every order
`as_completed` can yield). -/
inductive Step (g : List (Nat × List Nat)) (k : Nat) (outcome : Nat → Bool) :
    PState → PState → Prop where
  | finish (s : PState) (t : Nat) (ht : t ∈ s.running) :
      Step g k outcome s (processFinish g k s t (outcome t))

/-- States reachable by the `run_parallel` controller on graph `g` with
`max_workers = k` and the given task outcomes. -/
def Reachable (g : List (Nat × List Nat)) (k : Nat) (outcome : Nat → Bool)
    (s : PState) : Prop :=
  Relation.ReflTransGen (Step g k outcome) (initState g k) s

/-- Well-formedness of a built task dict: object identities are distinct keys
(a Python dict cannot hold a key twice) and dependency lists only reference
registered tasks (`add_dependency` only ever appends registered tasks). -/
def WFGraph (g : List (Nat × List Nat)) : Prop :=
  (keysOf g).Nodup ∧ ∀ p ∈ g, ∀ d ∈ p.2, d ∈ keysOf g

instance (g : List (Nat × List Nat)) : Decidable (WFGraph g) := by
  unfold WFGraph; infer_instance

/-- One step of the Kahn-style peeling used to state acyclicity: adjoin every
not-yet-removed task all of whose dependencies are removed. -/
def acyclicStep (g : List (Nat × List Nat)) (removed : List Nat) : List Nat :=
  removed ++
    (g.filter (fun p => !(removed.contains p.1) && p.2.all (fun d => removed.contains d))).map
      Prod.fst

/-- The dependency relation of `g` restricted to registered tasks is acyclic:
iterating the peeling step `g.length` times removes every task. -/
def AcyclicB (g : List (Nat × List Nat)) : Bool :=
  (keysOf g).all
    (fun t => ((List.range (g.length + 1)).foldl (fun acc _ => acyclicStep g acc) []).contains t)

/-- Tasks finished so far, read off a trace. -/
def finishedOf (tr : List Event) : List Nat :=
  tr.filterMap (fun e =>
    match e with
    | Event.finish t _ => some t
    | _ => Option.none)

/-- Helper for `depOK`: walk the trace keeping the list of tasks already
finished; each `submit t` must find every declared dependency of `t` already
finished. -/
def depOKAux (deps : Nat → List Nat) (fin : List Nat) : List Event → Bool
  | [] => true
  | Event.submit t :: rest =>
    (deps t).all (fun d => fin.contains d) && depOKAux deps fin rest
  | Event.finish t _ :: rest => depOKAux deps (t :: fin) rest

/-- A trace respects the dependency lists: no task is submitted before all of
its declared dependencies have finished. -/
def depOK (deps : Nat → List Nat) (tr : List Event) : Bool := depOKAux deps [] tr

/-! ## Basic lemmas about the ordered dict -/

theorem odLookup_eq_none_iff (l : List (Nat × List Nat)) (t : Nat) :
    odLookup l t = Option.none ↔ t ∉ keysOf l := by
  induction l with
  | nil => simp [odLookup, keysOf]
  | cons p rest ih =>
    simp only [keysOf, List.map_cons, List.mem_cons] at ih ⊢
    by_cases h : p.1 = t
    · simp [odLookup, h]
    · have h' : ¬ t = p.1 := fun e => h e.symm
      simp [odLookup, h, h', ih]

theorem odLookup_isSome_of_mem {l : List (Nat × List Nat)} {t : Nat}
    (h : t ∈ keysOf l) : ∃ v, odLookup l t = some v := by
  cases hl : odLookup l t with
  | none => exact absurd h ((odLookup_eq_none_iff l t).mp hl)
  | some v => exact ⟨v, rfl⟩

theorem keysOf_odSet_of_not_mem (l : List (Nat × List Nat)) (t : Nat) (v : List Nat)
    (h : t ∉ keysOf l) : keysOf (odSet l t v) = keysOf l ++ [t] := by
  induction l with
  | nil => simp [odSet, keysOf]
  | cons p rest ih =>
    simp only [keysOf, List.map_cons, List.mem_cons, not_or] at h ih ⊢
    have h1 : ¬ p.1 = t := fun e => h.1 e.symm
    simp [odSet, h1, ih h.2]

theorem length_odSet_of_not_mem (l : List (Nat × List Nat)) (t : Nat) (v : List Nat)
    (h : t ∉ keysOf l) : (odSet l t v).length = l.length + 1 := by
  have := keysOf_odSet_of_not_mem l t v h
  have h1 : (keysOf (odSet l t v)).length = (keysOf l ++ [t]).length := by rw [this]
  simpa [keysOf] using h1

theorem odLookup_odSet_self (l : List (Nat × List Nat)) (t : Nat) (v : List Nat) :
    odLookup (odSet l t v) t = some v := by
  induction l with
  | nil => simp [odSet, odLookup]
  | cons p rest ih =>
    by_cases h : p.1 = t
    · simp [odSet, h, odLookup]
    · simp [odSet, h, odLookup, ih]

/-! ## C2 — `sign_match` and the `None` keyword matcher -/

/-- A task bound to an instance named `"modelA"` with method
`"create_forecast"` and no keyword argument whose value is `None`:
`sign_match("modelA", "create_forecast", None)` returns `False` on it, because
`kw_arg in self.kwargs.values()` fails — refuting the claim that the `None`
matcher is trivially satisfied and that this task must match. -/
theorem sign_match_none_kwarg_counterexample :
    (PTask.init (PyVal.inst 1 true "modelA" false PyVal.none) "create_forecast"
        []).sign_match (PyVal.str "modelA") (PyVal.str "create_forecast") PyVal.none
      = Except.ok false := by
  rfl

/-- C2 (amended): in the two-model scenario, `sign_match("modelA",
"create_forecast", None)` returns `True` for the task bound to the instance
named `"modelA"` with method `"create_forecast"` *provided `None` occurs among
its keyword-argument values*, and `False` for any task bound to an instance
named `"modelB"` whatever its method and kwargs; a `None` argument-value
matcher satisfies its predicate only when `None` is among the task's kwargs
values. -/
theorem sign_match_of_obj_some {t : PTask} {so : PyVal} (h : t.obj = some so)
    (o m k : PyVal) :
    t.sign_match o m k = Except.ok (signMatchCore so t.method t.kwargs o m k) := by
  unfold PTask.sign_match
  rw [h]

theorem sign_match_scenario (tA tB : PTask) (iA iB : Nat) (hsA hsB : Bool) (stA stB : PyVal)
    (hA : tA.obj = some (PyVal.inst iA true "modelA" hsA stA))
    (hAm : tA.method = "create_forecast")
    (hAkw : PyVal.none ∈ tA.kwargs.map Prod.snd)
    (hB : tB.obj = some (PyVal.inst iB true "modelB" hsB stB)) :
    tA.sign_match (PyVal.str "modelA") (PyVal.str "create_forecast") PyVal.none
        = Except.ok true ∧
    tB.sign_match (PyVal.str "modelA") (PyVal.str "create_forecast") PyVal.none
        = Except.ok false := by
  constructor
  · rw [sign_match_of_obj_some hA]
    have hany : (tA.kwargs.map Prod.snd).any (fun v => pyEq PyVal.none v) = true := by
      rw [List.any_eq_true]
      exact ⟨PyVal.none, hAkw, rfl⟩
    have e1 : pyEq (PyVal.inst iA true "modelA" hsA stA) (PyVal.str "modelA") = false := rfl
    have e2 : pyEq (PyVal.str "modelA")
        (pyGetattrNameOrNone (PyVal.inst iA true "modelA" hsA stA)) = true := rfl
    have e3 : pyEq (PyVal.str "create_forecast") (PyVal.str "create_forecast") = true := rfl
    simp only [signMatchCore, e1, e2, hAm, e3, Bool.false_or, if_true, hany]
  · rw [sign_match_of_obj_some hB]
    have f1 : pyEq (PyVal.inst iB true "modelB" hsB stB) (PyVal.str "modelA") = false := rfl
    have f2 : pyEq (PyVal.str "modelA")
        (pyGetattrNameOrNone (PyVal.inst iB true "modelB" hsB stB)) = false := rfl
    simp only [signMatchCore, f1, f2, Bool.false_or, Bool.or_false]
    simp

/-- Witness for C2's amended theorem at concrete tasks. -/
theorem sign_match_scenario_witness :
    (PTask.init (PyVal.inst 1 true "modelA" false PyVal.none) "create_forecast"
        [("w", PyVal.none)]).sign_match (PyVal.str "modelA")
        (PyVal.str "create_forecast") PyVal.none = Except.ok true ∧
    (PTask.init (PyVal.inst 2 true "modelB" false PyVal.none) "create_forecast"
        [("w", PyVal.none)]).sign_match (PyVal.str "modelA")
        (PyVal.str "create_forecast") PyVal.none = Except.ok false :=
  sign_match_scenario _ _ 1 2 false false PyVal.none PyVal.none rfl rfl
    (by decide) rfl

/-! ## C6 — `Task.run` result caching and reference release -/

/-- C6: for a task whose object is present and whose bound operation returns
`v`, `Task.run` returns `v`; when `v` is truthy (Python's `if output:`, the
code's reading of "non-empty/non-null") the result is cached in `store` and
the object reference is deleted; when `v` is falsy, `store` is unchanged and
an object reference is kept. -/
theorem task_run_store_semantics
    (call : PyVal → String → List (String × PyVal) → Except PyErr PyVal)
    (t : PTask) (o v : PyVal) (ho : t.obj = some o)
    (hv : call (if pyHasattrStore o then pyGetattrStore o else o) t.method t.kwargs
        = Except.ok v) :
    (t.run call).2 = Except.ok v ∧
    (pyTruthy v = true →
      (t.run call).1.store = v ∧ (t.run call).1.obj = Option.none) ∧
    (pyTruthy v = false →
      (t.run call).1.store = t.store ∧ (t.run call).1.obj.isSome = true) := by
  simp only [PTask.run, ho, hv]
  by_cases htr : pyTruthy v = true
  · simp [htr]
  · simp only [Bool.not_eq_true] at htr
    simp [htr]

/-- Witness for C6 at a concrete task and call oracle (truthy output). -/
theorem task_run_store_semantics_witness :
    ((PTask.init (PyVal.inst 1 true "modelA" false PyVal.none) "create_forecast"
        []).run (fun _ _ _ => Except.ok (PyVal.int 5))).2 = Except.ok (PyVal.int 5) ∧
    (pyTruthy (PyVal.int 5) = true →
      ((PTask.init (PyVal.inst 1 true "modelA" false PyVal.none) "create_forecast"
          []).run (fun _ _ _ => Except.ok (PyVal.int 5))).1.store = PyVal.int 5 ∧
      ((PTask.init (PyVal.inst 1 true "modelA" false PyVal.none) "create_forecast"
          []).run (fun _ _ _ => Except.ok (PyVal.int 5))).1.obj = Option.none) ∧
    (pyTruthy (PyVal.int 5) = false →
      ((PTask.init (PyVal.inst 1 true "modelA" false PyVal.none) "create_forecast"
          []).run (fun _ _ _ => Except.ok (PyVal.int 5))).1.store
          = (PTask.init (PyVal.inst 1 true "modelA" false PyVal.none) "create_forecast"
              []).store ∧
      ((PTask.init (PyVal.inst 1 true "modelA" false PyVal.none) "create_forecast"
          []).run (fun _ _ _ => Except.ok (PyVal.int 5))).1.obj.isSome = true) :=
  task_run_store_semantics (fun _ _ _ => Except.ok (PyVal.int 5)) _ _ (PyVal.int 5) rfl rfl

/-! ## C8 — the task counter versus the dict size -/

/-- Adding the same task object twice: `self.tasks[task] = []` overwrites the
dict entry but `self.ntasks += 1` still increments, so after two `add` calls
with the same task, `ntasks = 2` while the dict has one entry — refuting the
claim for arbitrary sequences of `add` calls. -/
theorem ntasks_duplicate_add_counterexample :
    (TaskGraph.add (TaskGraph.add TaskGraph.empty 0) 0).ntasks = 2 ∧
    (TaskGraph.add (TaskGraph.add TaskGraph.empty 0) 0).tasks.length = 1 := by
  decide

theorem ntasks_eq_size_aux (ids : List Nat) :
    ∀ g : TaskGraph, ids.Nodup → (∀ i ∈ ids, i ∉ keysOf g.tasks) →
      g.ntasks = g.tasks.length →
      (ids.foldl TaskGraph.add g).ntasks = (ids.foldl TaskGraph.add g).tasks.length := by
  induction ids with
  | nil => intro g _ _ h; simpa using h
  | cons i rest ih =>
    intro g hnd hfresh hsz
    have hi : i ∉ keysOf g.tasks := hfresh i (by simp)
    have hnd' : rest.Nodup := (List.nodup_cons.mp hnd).2
    have hi' : i ∉ rest := (List.nodup_cons.mp hnd).1
    simp only [List.foldl_cons]
    refine ih (g.add i) hnd' ?_ ?_
    · intro j hj
      rw [TaskGraph.add, keysOf_odSet_of_not_mem _ _ _ hi]
      simp only [List.mem_append, List.mem_singleton, not_or]
      exact ⟨hfresh j (by simp [hj]), fun hji => hi' (hji ▸ hj)⟩
    · rw [TaskGraph.add]
      simp only
      rw [length_odSet_of_not_mem _ _ _ hi, hsz]

/-- C8 (amended): after any sequence of `add` calls with pairwise-distinct
task objects on a fresh graph, the `ntasks` counter equals the number of
entries in the task dict. -/
theorem ntasks_eq_size_after_distinct_adds (ids : List Nat) (h : ids.Nodup) :
    (ids.foldl TaskGraph.add TaskGraph.empty).ntasks
      = (ids.foldl TaskGraph.add TaskGraph.empty).tasks.length :=
  ntasks_eq_size_aux ids TaskGraph.empty h (by simp [TaskGraph.empty, keysOf]) rfl

/-- Witness for C8's amended theorem at a concrete add sequence. -/
theorem ntasks_eq_size_after_distinct_adds_witness :
    (([3, 1, 2] : List Nat).foldl TaskGraph.add TaskGraph.empty).ntasks
      = (([3, 1, 2] : List Nat).foldl TaskGraph.add TaskGraph.empty).tasks.length :=
  ntasks_eq_size_after_distinct_adds [3, 1, 2] (by decide)

/-! ## C9 / C10 — `add_dependency` -/

theorem scanDeps_ok_of_objs (env : Nat → PTask) (tasks : List (Nat × List Nat))
    (o m k : PyVal)
    (h : ∀ x ∈ keysOf tasks, ((env x).obj).isSome = true) :
    ∃ ds, scanDeps env tasks o m k = Except.ok ds ∧
      ∀ x ∈ keysOf tasks, (env x).sign_match o m k = Except.ok true → x ∈ ds := by
  induction tasks with
  | nil => exact ⟨[], rfl, by simp [keysOf]⟩
  | cons p rest ih =>
    have hp : ((env p.1).obj).isSome = true := h p.1 (by simp [keysOf])
    obtain ⟨so, hso⟩ := Option.isSome_iff_exists.mp hp
    have hrest : ∀ x ∈ keysOf rest, ((env x).obj).isSome = true := by
      intro x hx
      refine h x ?_
      simp only [keysOf, List.map_cons, List.mem_cons]
      exact Or.inr hx
    obtain ⟨ds, hds, hmem⟩ := ih hrest
    refine ⟨if signMatchCore so (env p.1).method (env p.1).kwargs o m k then p.1 :: ds
      else ds, ?_, ?_⟩
    · simp only [scanDeps, sign_match_of_obj_some hso, hds]
    · intro x hx hsm
      simp only [keysOf, List.map_cons, List.mem_cons] at hx
      rcases hx with hx | hx
      · rw [hx] at hsm ⊢
        rw [sign_match_of_obj_some hso] at hsm
        have : signMatchCore so (env p.1).method (env p.1).kwargs o m k = true :=
          Except.ok.injEq _ _ ▸ (by injection hsm)
        simp [this]
      · have hxds := hmem x hx hsm
        by_cases hb : signMatchCore so (env p.1).method (env p.1).kwargs o m k = true
        · simp [hb, hxds]
        · simp only [Bool.not_eq_true] at hb
          simp [hb, hxds]

/-- C9: calling `add_dependency` for a task that was never registered raises
`KeyError` at the `self.tasks[task]` lookup, after the signature scan has
completed (here: every registered task still has its `obj` attribute, so the
scan itself raises nothing), and the graph — task dict and counter alike — is
left unchanged. -/
theorem add_dependency_unregistered_keyerror (env : Nat → PTask) (g : TaskGraph)
    (t : Nat) (o m k : PyVal)
    (hobj : ∀ x ∈ keysOf g.tasks, ((env x).obj).isSome = true)
    (ht : t ∉ keysOf g.tasks) :
    TaskGraph.add_dependency env g t o m k = (g, some PyErr.keyError) := by
  obtain ⟨ds, hds, -⟩ := scanDeps_ok_of_objs env g.tasks o m k hobj
  have hl : odLookup g.tasks t = Option.none := (odLookup_eq_none_iff _ _).mpr ht
  simp only [TaskGraph.add_dependency, hds, hl]

/-- Witness for C9 at a concrete graph and unregistered task. -/
theorem add_dependency_unregistered_keyerror_witness :
    TaskGraph.add_dependency (fun _ => PTask.init (PyVal.int 1) "m" [])
        { tasks := [(0, [])], ntasks := 1 } 1 PyVal.none PyVal.none PyVal.none
      = ({ tasks := [(0, [])], ntasks := 1 }, some PyErr.keyError) :=
  add_dependency_unregistered_keyerror _ _ 1 PyVal.none PyVal.none PyVal.none
    (by decide) (by decide)

/-- C10: `add_dependency` scans every registered task, the provided task
itself included; when the task's own signature matches, the task is appended
to its own dependency list and no error is raised — the graph accepts the
self-cycle. -/
theorem add_dependency_self_cycle (env : Nat → PTask) (g : TaskGraph) (t : Nat)
    (o m k : PyVal) (old : List Nat)
    (hobj : ∀ x ∈ keysOf g.tasks, ((env x).obj).isSome = true)
    (ht : odLookup g.tasks t = some old)
    (hmatch : (env t).sign_match o m k = Except.ok true) :
    (TaskGraph.add_dependency env g t o m k).2 = Option.none ∧
    t ∈ depsOf (TaskGraph.add_dependency env g t o m k).1.tasks t := by
  obtain ⟨ds, hds, hmem⟩ := scanDeps_ok_of_objs env g.tasks o m k hobj
  have htk : t ∈ keysOf g.tasks := by
    by_contra hc
    rw [(odLookup_eq_none_iff _ _).mpr hc] at ht
    cases ht
  have htds : t ∈ ds := hmem t htk hmatch
  simp only [TaskGraph.add_dependency, hds, ht]
  refine ⟨trivial, ?_⟩
  simp only [depsOf, odLookup_odSet_self, Option.getD_some, List.mem_append]
  exact Or.inr htds

/-- Witness for C10 at a concrete graph whose single task matches itself. -/
theorem add_dependency_self_cycle_witness :
    (TaskGraph.add_dependency
        (fun _ => PTask.init (PyVal.inst 0 true "m" false PyVal.none) "f"
          [("a", PyVal.int 3)])
        { tasks := [(0, [])], ntasks := 1 } 0 (PyVal.str "m") (PyVal.str "f")
        (PyVal.int 3)).2 = Option.none ∧
    0 ∈ depsOf (TaskGraph.add_dependency
        (fun _ => PTask.init (PyVal.inst 0 true "m" false PyVal.none) "f"
          [("a", PyVal.int 3)])
        { tasks := [(0, [])], ntasks := 1 } 0 (PyVal.str "m") (PyVal.str "f")
        (PyVal.int 3)).1.tasks 0 :=
  add_dependency_self_cycle _ _ 0 (PyVal.str "m") (PyVal.str "f") (PyVal.int 3) []
    (by decide) (by decide) rfl

/-! ## C4 / C5 — serial execution -/

theorem runSerialGo_keys_only (res : Nat → Except PyErr PyVal) :
    ∀ l1 l2 : List (Nat × List Nat), keysOf l1 = keysOf l2 →
      runSerialGo res l1 = runSerialGo res l2 := by
  intro l1
  induction l1 with
  | nil =>
    intro l2 h
    cases l2 with
    | nil => rfl
    | cons q r2 => simp [keysOf] at h
  | cons p r1 ih =>
    intro l2 h
    cases l2 with
    | nil => simp [keysOf] at h
    | cons q r2 =>
      simp only [keysOf, List.map_cons, List.cons.injEq] at h
      have h2 : keysOf r1 = keysOf r2 := h.2
      simp only [runSerialGo, h.1, ih r2 h2]

theorem runSerialGo_all_ok (res : Nat → Except PyErr PyVal) :
    ∀ l : List (Nat × List Nat), (∀ x ∈ keysOf l, ∃ v, res x = Except.ok v) →
      runSerialGo res l = (keysOf l, Option.none) := by
  intro l
  induction l with
  | nil => intro _; rfl
  | cons p rest ih =>
    intro h
    obtain ⟨v, hv⟩ := h p.1 (by simp [keysOf])
    have hrest : ∀ x ∈ keysOf rest, ∃ v, res x = Except.ok v := by
      intro x hx
      refine h x ?_
      simp only [keysOf, List.map_cons, List.mem_cons]
      exact Or.inr hx
    simp only [runSerialGo, hv, ih hrest, keysOf, List.map_cons]

/-- C4: with every invocation succeeding, serial `TaskGraph.run` invokes the
registered tasks exactly in insertion order, each exactly once (task objects
being distinct dict keys), and the dependency lists are never consulted: any
graph with the same key sequence and arbitrary dependency lists produces the
identical serial run. -/
theorem run_serial_insertion_order (res : Nat → Except PyErr PyVal) (g : TaskGraph)
    (hok : ∀ x ∈ keysOf g.tasks, ∃ v, res x = Except.ok v)
    (hnd : (keysOf g.tasks).Nodup) :
    (g.run res).started = keysOf g.tasks ∧
    (∀ x ∈ keysOf g.tasks, (g.run res).started.count x = 1) ∧
    (∀ g2 : TaskGraph, keysOf g2.tasks = keysOf g.tasks → g2.run res = g.run res) := by
  have h1 : runSerialGo res g.tasks = (keysOf g.tasks, Option.none) :=
    runSerialGo_all_ok res g.tasks hok
  refine ⟨?_, ?_, ?_⟩
  · simp [TaskGraph.run, h1]
  · intro x hx
    simp only [TaskGraph.run, h1]
    exact List.count_eq_one_of_mem hnd hx
  · intro g2 h2
    simp [TaskGraph.run, runSerialGo_keys_only res g2.tasks g.tasks h2]

/-- Witness for C4 at a concrete graph. -/
theorem run_serial_insertion_order_witness :
    (TaskGraph.run (fun t => Except.ok (PyVal.int (t : Int)))
        { tasks := [(5, []), (7, [5])], ntasks := 2 }).started
      = keysOf ([(5, []), (7, [5])] : List (Nat × List Nat)) ∧
    (∀ x ∈ keysOf ([(5, []), (7, [5])] : List (Nat × List Nat)),
      (TaskGraph.run (fun t => Except.ok (PyVal.int (t : Int)))
          { tasks := [(5, []), (7, [5])], ntasks := 2 }).started.count x = 1) ∧
    (∀ g2 : TaskGraph, keysOf g2.tasks = keysOf ([(5, []), (7, [5])] :
        List (Nat × List Nat)) →
      g2.run (fun t => Except.ok (PyVal.int (t : Int)))
        = TaskGraph.run (fun t => Except.ok (PyVal.int (t : Int)))
            { tasks := [(5, []), (7, [5])], ntasks := 2 }) :=
  run_serial_insertion_order _ _ (fun x _ => ⟨PyVal.int (x : Int), rfl⟩) (by decide)

theorem runSerialGo_abort (res : Nat → Except PyErr PyVal) (e : PyErr) :
    ∀ (l : List (Nat × List Nat)) (pre : List Nat) (t : Nat) (post : List Nat),
      keysOf l = pre ++ t :: post →
      (∀ x ∈ pre, ∃ v, res x = Except.ok v) →
      res t = Except.error e →
      runSerialGo res l = (pre ++ [t], some e) := by
  intro l
  induction l with
  | nil =>
    intro pre t post h
    exfalso
    have : (keysOf ([] : List (Nat × List Nat))).length = (pre ++ t :: post).length := by
      rw [h]
    simp [keysOf] at this
    omega
  | cons p rest ih =>
    intro pre t post h hpre herr
    cases pre with
    | nil =>
      simp only [keysOf, List.map_cons, List.nil_append, List.cons.injEq] at h
      simp only [runSerialGo, h.1, herr, List.nil_append]
    | cons q pre2 =>
      simp only [keysOf, List.map_cons, List.cons_append, List.cons.injEq] at h
      obtain ⟨v, hv⟩ := hpre q (by simp)
      have hrec := ih pre2 t post h.2 (fun x hx => hpre x (by simp [hx])) herr
      simp only [runSerialGo, h.1, hv, hrec, List.cons_append]

/-- C5: if a task raises during serial `TaskGraph.run`, the exception
propagates unmodified to the caller, the tasks after it are never invoked
(the run stops with the failing task as the last one started), and the
profiling summary is not printed. -/
theorem run_serial_abort_on_error (res : Nat → Except PyErr PyVal) (g : TaskGraph)
    (pre post : List Nat) (t : Nat) (e : PyErr)
    (hsplit : keysOf g.tasks = pre ++ t :: post)
    (hpre : ∀ x ∈ pre, ∃ v, res x = Except.ok v)
    (herr : res t = Except.error e) :
    g.run res = { started := pre ++ [t], err := some e, profPrinted := false } := by
  have h := runSerialGo_abort res e g.tasks pre t post hsplit hpre herr
  simp [TaskGraph.run, h]

/-- Witness for C5 at a concrete graph whose middle task raises. -/
theorem run_serial_abort_on_error_witness :
    TaskGraph.run
        (fun t => if t = 7 then Except.error (PyErr.raised 3) else Except.ok (PyVal.int 1))
        { tasks := [(5, []), (7, [5]), (9, [])], ntasks := 3 }
      = { started := [5] ++ [7], err := some (PyErr.raised 3), profPrinted := false } :=
  run_serial_abort_on_error _ _ [5] [9] 7 (PyErr.raised 3) (by decide)
    (by intro x hx; simp at hx; rw [hx]; exact ⟨PyVal.int 1, rfl⟩) rfl

/-! ## Lemmas about the backfill loop -/

theorem backfillGo_split (k : Nat) :
    ∀ (ready running : List Nat) (trace : List Event),
      ∃ n : Nat,
        (backfillGo k ready running trace).1 = ready.drop n ∧
        (backfillGo k ready running trace).2.1 = running ++ ready.take n ∧
        (backfillGo k ready running trace).2.2
          = trace ++ (ready.take n).map Event.submit := by
  intro ready
  induction ready with
  | nil =>
    intro running trace
    exact ⟨0, by simp [backfillGo], by simp [backfillGo], by simp [backfillGo]⟩
  | cons t rest ih =>
    intro running trace
    by_cases h : running.length < k
    · obtain ⟨n, h1, h2, h3⟩ := ih (running ++ [t]) (trace ++ [Event.submit t])
      refine ⟨n + 1, ?_, ?_, ?_⟩
      · simpa [backfillGo, h] using h1
      · rw [show (backfillGo k (t :: rest) running trace)
            = backfillGo k rest (running ++ [t]) (trace ++ [Event.submit t]) by
              simp [backfillGo, h]]
        simp [h2]
      · rw [show (backfillGo k (t :: rest) running trace)
            = backfillGo k rest (running ++ [t]) (trace ++ [Event.submit t]) by
              simp [backfillGo, h]]
        simp [h3]
    · exact ⟨0, by simp [backfillGo, h], by simp [backfillGo, h], by simp [backfillGo, h]⟩

theorem backfillGo_length_le (k : Nat) :
    ∀ (ready running : List Nat) (trace : List Event),
      running.length ≤ k → (backfillGo k ready running trace).2.1.length ≤ k := by
  intro ready
  induction ready with
  | nil => intro running trace h; simpa [backfillGo] using h
  | cons t rest ih =>
    intro running trace h
    by_cases hlt : running.length < k
    · have := ih (running ++ [t]) (trace ++ [Event.submit t])
        (by simp only [List.length_append, List.length_singleton]; omega)
      simpa [backfillGo, hlt] using this
    · simpa [backfillGo, hlt] using h

theorem backfillGo_trace_indep (k : Nat) :
    ∀ (ready running : List Nat) (tr1 tr2 : List Event),
      (backfillGo k ready running tr1).1 = (backfillGo k ready running tr2).1 ∧
      (backfillGo k ready running tr1).2.1 = (backfillGo k ready running tr2).2.1 := by
  intro ready
  induction ready with
  | nil => intro running tr1 tr2; exact ⟨rfl, rfl⟩
  | cons t rest ih =>
    intro running tr1 tr2
    by_cases hlt : running.length < k
    · simpa [backfillGo, hlt] using
        ih (running ++ [t]) (tr1 ++ [Event.submit t]) (tr2 ++ [Event.submit t])
    · simp [backfillGo, hlt]

/-! ## Lemmas about the release loop -/

theorem releaseGo_spec :
    ∀ (D : List Nat) (indeg : Nat → Int) (ready : List Nat),
      (∀ x, (D.count x : Int) ≤ indeg x) →
      ∃ newly : List Nat,
        (releaseGo D indeg ready).2 = ready ++ newly ∧
        (∀ x, (releaseGo D indeg ready).1 x = indeg x - (D.count x : Int)) ∧
        newly.Nodup ∧
        (∀ x ∈ newly, x ∈ D) ∧
        (∀ x, x ∈ newly ↔ ((releaseGo D indeg ready).1 x = 0 ∧ indeg x ≠ 0)) := by
  intro D
  induction D with
  | nil =>
    intro indeg ready _
    refine ⟨[], by simp [releaseGo], ?_, List.nodup_nil, by simp, ?_⟩
    · intro x; simp [releaseGo]
    · intro x; simp [releaseGo]
  | cons d rest ih =>
    intro indeg ready hpre
    have hstep : ∀ r : List Nat, releaseGo (d :: rest) indeg r
        = releaseGo rest (Function.update indeg d (indeg d - 1))
            (if indeg d - 1 = 0 then r ++ [d] else r) := by
      intro r
      simp [releaseGo, Function.update_same]
    have hd_ge : (rest.count d : Int) + 1 ≤ indeg d := by
      have := hpre d
      rw [List.count_cons_self] at this
      push_cast at this
      omega
    have hpre2 : ∀ x, ((rest.count x : Nat) : Int)
        ≤ Function.update indeg d (indeg d - 1) x := by
      intro x
      by_cases hx : x = d
      · subst hx
        rw [Function.update_same]
        omega
      · rw [Function.update_noteq hx]
        have := hpre x
        rw [List.count_cons_of_ne hx] at this
        exact this
    have hcount_ne : ∀ x, x ≠ d → (d :: rest).count x = rest.count x := by
      intro x hx
      exact List.count_cons_of_ne hx rest
    by_cases hdz : indeg d - 1 = 0
    · -- the head occurrence drops `d`'s indegree to zero: `d` is enqueued now
      have hcount0 : rest.count d = 0 := by
        have := hd_ge
        have h1 : indeg d = 1 := by omega
        rw [h1] at this
        omega
      obtain ⟨newly, hn1, hn2, hn3, hn4, hn5⟩ :=
        ih (Function.update indeg d (indeg d - 1)) (ready ++ [d]) hpre2
      have heq : releaseGo (d :: rest) indeg ready
          = releaseGo rest (Function.update indeg d (indeg d - 1)) (ready ++ [d]) := by
        rw [hstep, if_pos hdz]
      refine ⟨d :: newly, ?_, ?_, ?_, ?_, ?_⟩
      · rw [heq, hn1]
        simp
      · intro x
        rw [heq, hn2 x]
        by_cases hx : x = d
        · subst hx
          rw [Function.update_same, List.count_cons_self, hcount0]
          push_cast
          omega
        · rw [Function.update_noteq hx, hcount_ne x hx]
      · refine List.nodup_cons.mpr ⟨?_, hn3⟩
        intro hmem
        have := (hn5 d).mp hmem
        rw [Function.update_same] at this
        exact this.2 hdz
      · intro x hx
        rcases List.mem_cons.mp hx with hx | hx
        · rw [hx]; exact List.mem_cons_self d rest
        · exact List.mem_cons_of_mem d (hn4 x hx)
      · intro x
        rw [heq]
        constructor
        · intro hx
          rcases List.mem_cons.mp hx with hx | hx
          · subst hx
            refine ⟨?_, ?_⟩
            · rw [hn2 x, Function.update_same, hcount0]
              push_cast
              omega
            · omega
          · obtain ⟨hz, hne⟩ := (hn5 x).mp hx
            have hxd : x ≠ d := by
              intro hxe
              subst hxe
              rw [Function.update_same] at hne
              exact hne hdz
            rw [Function.update_noteq hxd] at hne
            exact ⟨hz, hne⟩
        · rintro ⟨hz, hne⟩
          by_cases hx : x = d
          · subst hx; exact List.mem_cons_self _ _
          · refine List.mem_cons_of_mem d ((hn5 x).mpr ⟨hz, ?_⟩)
            rw [Function.update_noteq hx]
            exact hne
    · -- the head occurrence does not reach zero: nothing enqueued here
      obtain ⟨newly, hn1, hn2, hn3, hn4, hn5⟩ :=
        ih (Function.update indeg d (indeg d - 1)) ready hpre2
      have heq : releaseGo (d :: rest) indeg ready
          = releaseGo rest (Function.update indeg d (indeg d - 1)) ready := by
        rw [hstep, if_neg hdz]
      refine ⟨newly, by rw [heq, hn1], ?_, hn3, ?_, ?_⟩
      · intro x
        rw [heq, hn2 x]
        by_cases hx : x = d
        · subst hx
          rw [Function.update_same, List.count_cons_self]
          push_cast
          omega
        · rw [Function.update_noteq hx, hcount_ne x hx]
      · intro x hx
        exact List.mem_cons_of_mem d (hn4 x hx)
      · intro x
        rw [heq]
        constructor
        · intro hx
          obtain ⟨hz, hne⟩ := (hn5 x).mp hx
          by_cases hxd : x = d
          · subst hxd
            refine ⟨hz, ?_⟩
            omega
          · rw [Function.update_noteq hxd] at hne
            exact ⟨hz, hne⟩
        · rintro ⟨hz, hne⟩
          refine (hn5 x).mpr ⟨hz, ?_⟩
          by_cases hxd : x = d
          · subst hxd
            rw [Function.update_same]
            exact hdz
          · rw [Function.update_noteq hxd]
            exact hne

/-! ## Lemmas about the dependents map -/

theorem dependentsMap_subset (g : List (Nat × List Nat)) (t : Nat) :
    ∀ x ∈ dependentsMap g t, x ∈ keysOf g := by
  intro x hx
  simp only [dependentsMap, List.mem_flatMap, List.mem_map] at hx
  obtain ⟨p, hp, _, _, rfl⟩ := hx
  exact List.mem_map_of_mem Prod.fst hp

theorem dependentsMap_count_of_not_mem (g : List (Nat × List Nat)) (t x : Nat)
    (hx : x ∉ keysOf g) : (dependentsMap g t).count x = 0 :=
  List.count_eq_zero.mpr (fun h => hx (dependentsMap_subset g t x h))

theorem filter_map_const_eq_replicate (l : List Nat) (t c : Nat) :
    (l.filter (fun y => y == t)).map (fun _ => c)
      = List.replicate (l.count t) c := by
  rw [List.eq_replicate_iff]
  constructor
  · rw [List.length_map, List.count, List.countP_eq_length_filter]
  · intro b hb
    simp only [List.mem_map] at hb
    obtain ⟨_, _, rfl⟩ := hb
    rfl

theorem dependentsMap_count (g : List (Nat × List Nat)) (hnd : (keysOf g).Nodup)
    (t : Nat) : ∀ x ∈ keysOf g, (dependentsMap g t).count x = (depsOf g x).count t := by
  induction g with
  | nil => simp [keysOf]
  | cons p rest ih =>
    intro x hx
    have hnd2 : (keysOf rest).Nodup := by
      simp only [keysOf, List.map_cons, List.nodup_cons] at hnd
      exact hnd.2
    have hp1 : p.1 ∉ keysOf rest := by
      simp only [keysOf, List.map_cons, List.nodup_cons] at hnd
      exact hnd.1
    have hsplit : dependentsMap (p :: rest) t
        = List.replicate (p.2.count t) p.1 ++ dependentsMap rest t := by
      simp only [dependentsMap, List.flatMap_cons]
      rw [filter_map_const_eq_replicate]
    have hx2 : x = p.1 ∨ x ∈ keysOf rest := by
      simp only [keysOf, List.map_cons, List.mem_cons] at hx
      exact hx
    rcases hx2 with hxp | hxr
    · subst hxp
      rw [hsplit, List.count_append, List.count_replicate]
      simp only [beq_self_eq_true, if_true]
      rw [dependentsMap_count_of_not_mem rest t p.1 hp1]
      have : depsOf (p :: rest) p.1 = p.2 := by
        simp [depsOf, odLookup]
      rw [this]
      omega
    · have hxne : x ≠ p.1 := fun h => hp1 (h ▸ hxr)
      rw [hsplit, List.count_append, List.count_replicate]
      rw [if_neg (by simpa using fun h => hxne h.symm)]
      have hne2 : ¬ p.1 = x := fun h => hxne h.symm
      have : depsOf (p :: rest) x = depsOf rest x := by
        simp [depsOf, odLookup, hne2]
      rw [this, Nat.zero_add]
      exact ih hnd2 x hxr

theorem count_le_countP_of_pred (l : List Nat) (p : Nat → Bool) (a : Nat)
    (ha : p a = true) : l.count a ≤ l.countP p := by
  rw [List.count, ]
  exact List.countP_mono_left (fun x _ hx => by rw [show x = a by simpa using hx]; exact ha)

theorem countP_unfinished_snoc (F : List Nat) (t : Nat) (ht : t ∉ F) :
    ∀ l : List Nat,
      l.countP (fun d => !(F.contains d))
        = l.countP (fun d => !((F ++ [t]).contains d)) + l.count t := by
  intro l
  induction l with
  | nil => simp
  | cons a rest ih =>
    rw [List.countP_cons, List.countP_cons, List.count_cons, ih]
    by_cases ha : a = t
    · rw [ha]
      have h1 : (!(F.contains t)) = true := by simp [ht]
      have h2 : (!((F ++ [t]).contains t)) = false := by simp
      rw [h1, h2]
      simp
      omega
    · have h3 : ((F ++ [t]).contains a) = (F.contains a) := by
        simp [ha]
      rw [h3]
      have h4 : (a == t) = false := by simpa using ha
      rw [h4]
      simp
      omega

/-! ## Lemmas about traces -/

theorem finishedOf_append (a b : List Event) :
    finishedOf (a ++ b) = finishedOf a ++ finishedOf b :=
  List.filterMap_append a b _

theorem finishedOf_submits (l : List Nat) :
    finishedOf (l.map Event.submit) = [] := by
  induction l with
  | nil => rfl
  | cons t rest ih => simpa [finishedOf, List.filterMap_cons] using ih

theorem finishedOf_single_finish (t : Nat) (ok : Bool) :
    finishedOf [Event.finish t ok] = [t] := rfl

theorem depOKAux_snoc_finish (deps : Nat → List Nat) (t : Nat) (ok : Bool) :
    ∀ (tr : List Event) (fin : List Nat),
      depOKAux deps fin (tr ++ [Event.finish t ok]) = depOKAux deps fin tr := by
  intro tr
  induction tr with
  | nil => intro fin; rfl
  | cons e rest ih =>
    intro fin
    cases e with
    | submit u =>
      simp only [List.cons_append, depOKAux, List.append_eq]
      rw [ih fin]
    | finish u o =>
      simp only [List.cons_append, depOKAux, List.append_eq]
      rw [ih (u :: fin)]

theorem depOKAux_submits (deps : Nat → List Nat) :
    ∀ (l fin : List Nat),
      (∀ x ∈ l, ∀ d ∈ deps x, d ∈ fin) →
      depOKAux deps fin (l.map Event.submit) = true := by
  intro l
  induction l with
  | nil => intro fin _; rfl
  | cons x rest ih =>
    intro fin h
    simp only [List.map_cons, depOKAux, Bool.and_eq_true]
    refine ⟨?_, ih fin (fun y hy => h y (List.mem_cons_of_mem x hy))⟩
    rw [List.all_eq_true]
    intro d hd
    simpa using h x (List.mem_cons_self x rest) d hd

theorem depOKAux_append_submits (deps : Nat → List Nat) :
    ∀ (tr : List Event) (fin : List Nat) (l : List Nat),
      (∀ x ∈ l, ∀ d ∈ deps x, d ∈ finishedOf tr ∨ d ∈ fin) →
      depOKAux deps fin (tr ++ l.map Event.submit) = depOKAux deps fin tr := by
  intro tr
  induction tr with
  | nil =>
    intro fin l h
    simp only [List.nil_append]
    have : ∀ x ∈ l, ∀ d ∈ deps x, d ∈ fin := by
      intro x hx d hd
      rcases h x hx d hd with h1 | h1
      · simp [finishedOf] at h1
      · exact h1
    rw [depOKAux_submits deps l fin this]
    rfl
  | cons e rest ih =>
    intro fin l h
    cases e with
    | submit u =>
      simp only [List.cons_append, depOKAux, List.append_eq]
      rw [ih fin l (by simpa [finishedOf, List.filterMap_cons] using h)]
    | finish u o =>
      simp only [List.cons_append, depOKAux, List.append_eq]
      refine ih (u :: fin) l ?_
      intro x hx d hd
      rcases h x hx d hd with h1 | h1
      · rw [show finishedOf (Event.finish u o :: rest) = u :: finishedOf rest from rfl]
          at h1
        rcases List.mem_cons.mp h1 with h2 | h2
        · exact Or.inr (by simp [h2])
        · exact Or.inl h2
      · exact Or.inr (List.mem_cons_of_mem u h1)

theorem depOKAux_positional (deps : Nat → List Nat) :
    ∀ (tr : List Event) (fin : List Nat), depOKAux deps fin tr = true →
      ∀ (i : Nat) (t d : Nat), tr.get? i = some (Event.submit t) → d ∈ deps t →
        (∃ j, j < i ∧ ∃ ok, tr.get? j = some (Event.finish d ok)) ∨ d ∈ fin := by
  intro tr
  induction tr with
  | nil => intro fin _ i t d hi; simp at hi
  | cons e rest ih =>
    intro fin h i t d hi hd
    cases e with
    | submit u =>
      simp only [depOKAux, Bool.and_eq_true] at h
      cases i with
      | zero =>
        simp only [List.get?] at hi
        have ht : u = t := by
          injection hi with hi2
          injection hi2
        subst ht
        right
        have := (List.all_eq_true.mp h.1) d hd
        simpa using this
      | succ i2 =>
        simp only [List.get?_cons_succ] at hi
        rcases ih fin h.2 i2 t d hi hd with ⟨j, hj, ok, hjj⟩ | hfin
        · exact Or.inl ⟨j + 1, by omega, ok, by simpa [List.get?_cons_succ] using hjj⟩
        · exact Or.inr hfin
    | finish u o =>
      simp only [depOKAux] at h
      cases i with
      | zero => simp at hi
      | succ i2 =>
        simp only [List.get?_cons_succ] at hi
        rcases ih (u :: fin) h i2 t d hi hd with ⟨j, hj, ok, hjj⟩ | hfin
        · exact Or.inl ⟨j + 1, by omega, ok, by simpa [List.get?_cons_succ] using hjj⟩
        · rcases List.mem_cons.mp hfin with h2 | h2
          · refine Or.inl ⟨0, by omega, o, ?_⟩
            rw [h2]
            rfl
          · exact Or.inr h2

/-! ## The controller invariant -/

theorem buildIndegree_eq_length (g : List (Nat × List Nat)) (x : Nat) :
    buildIndegree g x = ((depsOf g x).length : Int) := by
  unfold buildIndegree depsOf
  cases odLookup g x <;> simp

theorem countP_nil_contains (l : List Nat) :
    l.countP (fun d => !(([] : List Nat).contains d)) = l.length := by
  induction l with
  | nil => rfl
  | cons a rest ih =>
    rw [List.countP_cons]
    simp [ih]

theorem deps_subset_of_countP_zero (F l : List Nat)
    (h : l.countP (fun d => !(F.contains d)) = 0) : ∀ d ∈ l, d ∈ F := by
  intro d hd
  have := List.countP_eq_zero.mp h d hd
  simpa using this

/-- The invariant the `run_parallel` controller maintains: the indegree dict
counts exactly the unfinished occurrences in each task's dependency list; a
registered task has been enqueued (is in the ready deque, in flight, or
finished) exactly when its indegree is zero; the three pools are pairwise
disjoint and duplicate-free and stay inside the registered keys; at most
`max_workers` futures are in flight; and the trace never submits a task
before its declared dependencies have finished. -/
structure Inv (g : List (Nat × List Nat)) (k : Nat) (s : PState) : Prop where
  deg : ∀ x ∈ keysOf g, s.indegree x
      = ((depsOf g x).countP (fun d => !((finishedOf s.trace).contains d)) : Int)
  nonkey : ∀ x, x ∉ keysOf g → s.indegree x = 0
  readySub : ∀ x ∈ s.ready, x ∈ keysOf g
  runSub : ∀ x ∈ s.running, x ∈ keysOf g
  finSub : ∀ x ∈ finishedOf s.trace, x ∈ keysOf g
  nodupAll : (s.ready ++ s.running ++ finishedOf s.trace).Nodup
  enq : ∀ x ∈ keysOf g,
      ((x ∈ s.ready ∨ x ∈ s.running ∨ x ∈ finishedOf s.trace) ↔ s.indegree x = 0)
  bound : s.running.length ≤ k
  ok : depOK (depsOf g) s.trace = true

theorem inv_init (g : List (Nat × List Nat)) (k : Nat) (hwf : WFGraph g) :
    Inv g k (initState g k) := by
  obtain ⟨hnd, _⟩ := hwf
  have hinit : initState g k
      = { indegree := buildIndegree g,
          ready := (backfillGo k ((keysOf g).filter
            (fun t => buildIndegree g t == 0)) [] []).1,
          running := (backfillGo k ((keysOf g).filter
            (fun t => buildIndegree g t == 0)) [] []).2.1,
          completed := 0,
          trace := (backfillGo k ((keysOf g).filter
            (fun t => buildIndegree g t == 0)) [] []).2.2 } := rfl
  obtain ⟨n, hb1, hb2, hb3⟩ :=
    backfillGo_split k ((keysOf g).filter (fun t => buildIndegree g t == 0)) [] []
  set ready0 := (keysOf g).filter (fun t => buildIndegree g t == 0) with hready0
  have hready0sub : ∀ x ∈ ready0, x ∈ keysOf g := by
    intro x hx
    exact (List.mem_filter.mp hx).1
  have hready0deg : ∀ x ∈ ready0, buildIndegree g x = 0 := by
    intro x hx
    have := (List.mem_filter.mp hx).2
    simpa using this
  have hready0iff : ∀ x ∈ keysOf g, (x ∈ ready0 ↔ buildIndegree g x = 0) := by
    intro x hx
    constructor
    · exact hready0deg x
    · intro hz
      rw [hready0]
      refine List.mem_filter.mpr ⟨hx, ?_⟩
      simpa using hz
  have hfin : finishedOf (initState g k).trace = [] := by
    rw [hinit]
    simp only [hb3, List.nil_append]
    exact finishedOf_submits _
  have hfinB : finishedOf (backfillGo k ready0 [] []).2.2 = [] := by
    rw [hb3]
    simp only [List.nil_append]
    exact finishedOf_submits _
  have hmemsplit : ∀ x : Nat, x ∈ ready0 ↔ x ∈ ready0.drop n ∨ x ∈ ready0.take n := by
    intro x
    constructor
    · intro hx
      have hx2 : x ∈ ready0.take n ++ ready0.drop n := by
        rw [List.take_append_drop]
        exact hx
      rcases List.mem_append.mp hx2 with h | h
      · exact Or.inr h
      · exact Or.inl h
    · rintro (h | h)
      · exact List.drop_subset n ready0 h
      · exact List.take_subset n ready0 h
  refine ⟨?_, ?_, ?_, ?_, ?_, ?_, ?_, ?_, ?_⟩
  · intro x _
    rw [hfin, hinit]
    simp only
    rw [countP_nil_contains, buildIndegree_eq_length]
  · intro x hx
    rw [hinit]
    simp only
    rw [buildIndegree_eq_length]
    have : odLookup g x = Option.none := (odLookup_eq_none_iff g x).mpr hx
    simp [depsOf, this]
  · intro x hx
    rw [hinit] at hx
    simp only [hb1] at hx
    exact hready0sub x (List.drop_subset n ready0 hx)
  · intro x hx
    rw [hinit] at hx
    simp only [hb2, List.nil_append] at hx
    exact hready0sub x (List.take_subset n ready0 hx)
  · intro x hx
    rw [hfin] at hx
    cases hx
  · rw [hinit]
    simp only [hb1, hb2, List.nil_append]
    rw [hfinB]
    have hperm : (ready0.drop n ++ ready0.take n).Perm ready0 := by
      refine (List.perm_append_comm).trans ?_
      rw [List.take_append_drop]
    have hnod0 : ready0.Nodup := List.Nodup.filter _ hnd
    simpa using hperm.nodup_iff.mpr hnod0
  · intro x hx
    rw [hinit]
    simp only [hb1, hb2, List.nil_append]
    rw [hfinB]
    have h1 : (x ∈ ready0.drop n ∨ x ∈ ready0.take n ∨ x ∈ ([] : List Nat))
        ↔ x ∈ ready0 := by
      rw [hmemsplit x]
      simp
    rw [h1]
    exact hready0iff x hx
  · rw [hinit]
    simp only
    exact backfillGo_length_le k ready0 [] [] (by simp)
  · rw [hinit]
    simp only [hb3, List.nil_append]
    unfold depOK
    refine depOKAux_submits (depsOf g) (ready0.take n) [] ?_
    intro x hx d hd
    have hx0 : x ∈ ready0 := List.take_subset n ready0 hx
    have hz := hready0deg x hx0
    rw [buildIndegree_eq_length] at hz
    have : (depsOf g x).length = 0 := by exact_mod_cast hz
    rw [List.length_eq_zero.mp this] at hd
    cases hd

theorem inv_step (g : List (Nat × List Nat)) (k : Nat) (hwf : WFGraph g)
    (s : PState) (t : Nat) (ok : Bool) (ht : t ∈ s.running) (inv : Inv g k s) :
    Inv g k (processFinish g k s t ok) := by
  obtain ⟨hnd, hdeps⟩ := hwf
  obtain ⟨hnodRR, hnodFin, hdisjRRF⟩ := List.nodup_append.mp inv.nodupAll
  obtain ⟨hnodReady, hnodRun, hdisjRRun⟩ := List.nodup_append.mp hnodRR
  have htkey : t ∈ keysOf g := inv.runSub t ht
  have htF0 : t ∉ finishedOf s.trace := fun hf =>
    hdisjRRF (List.mem_append.mpr (Or.inr ht)) hf
  have hpre : ∀ x, ((dependentsMap g t).count x : Int) ≤ s.indegree x := by
    intro x
    by_cases hx : x ∈ keysOf g
    · rw [dependentsMap_count g hnd t x hx, inv.deg x hx]
      have h1 : (depsOf g x).count t
          ≤ (depsOf g x).countP (fun d => !((finishedOf s.trace).contains d)) := by
        refine count_le_countP_of_pred _ _ _ ?_
        simp [htF0]
      exact_mod_cast h1
    · rw [dependentsMap_count_of_not_mem g t x hx, inv.nonkey x hx]
      simp
  obtain ⟨newly, hn1, hn2, hn3, hn4, hn5⟩ :=
    releaseGo_spec (dependentsMap g t) s.indegree s.ready hpre
  obtain ⟨n, hb1, hb2, hb3⟩ := backfillGo_split k
    (releaseGo (dependentsMap g t) s.indegree s.ready).2
    (s.running.erase t) (s.trace ++ [Event.finish t ok])
  have hsi : (processFinish g k s t ok).indegree
      = (releaseGo (dependentsMap g t) s.indegree s.ready).1 := rfl
  have hsr : (processFinish g k s t ok).ready
      = (backfillGo k (releaseGo (dependentsMap g t) s.indegree s.ready).2
          (s.running.erase t) (s.trace ++ [Event.finish t ok])).1 := rfl
  have hsu : (processFinish g k s t ok).running
      = (backfillGo k (releaseGo (dependentsMap g t) s.indegree s.ready).2
          (s.running.erase t) (s.trace ++ [Event.finish t ok])).2.1 := rfl
  have hst : (processFinish g k s t ok).trace
      = (backfillGo k (releaseGo (dependentsMap g t) s.indegree s.ready).2
          (s.running.erase t) (s.trace ++ [Event.finish t ok])).2.2 := rfl
  have hready' : (processFinish g k s t ok).ready = (s.ready ++ newly).drop n := by
    rw [hsr, hb1, hn1]
  have hrunning' : (processFinish g k s t ok).running
      = s.running.erase t ++ (s.ready ++ newly).take n := by
    rw [hsu, hb2, hn1]
  have htrace : (processFinish g k s t ok).trace
      = (s.trace ++ [Event.finish t ok])
          ++ ((s.ready ++ newly).take n).map Event.submit := by
    rw [hst, hb3, hn1]
  have hfin1 : finishedOf (processFinish g k s t ok).trace
      = finishedOf s.trace ++ [t] := by
    rw [htrace, finishedOf_append, finishedOf_append, finishedOf_submits]
    simp [finishedOf_single_finish]
  have hindeg' : ∀ x, (processFinish g k s t ok).indegree x
      = s.indegree x - ((dependentsMap g t).count x : Int) := by
    intro x
    rw [hsi]
    exact hn2 x
  have hdeg1 : ∀ x ∈ keysOf g, (processFinish g k s t ok).indegree x
      = ((depsOf g x).countP
          (fun d => !((finishedOf s.trace ++ [t]).contains d)) : Int) := by
    intro x hx
    rw [hindeg' x, inv.deg x hx, dependentsMap_count g hnd t x hx]
    have hstep := countP_unfinished_snoc (finishedOf s.trace) t htF0 (depsOf g x)
    rw [hstep]
    push_cast
    ring
  have hnewkeys : ∀ x ∈ newly, x ∈ keysOf g := fun x hx =>
    dependentsMap_subset g t x (hn4 x hx)
  have hnewNotOld : ∀ x ∈ newly,
      ¬(x ∈ s.ready ∨ x ∈ s.running ∨ x ∈ finishedOf s.trace) := by
    intro x hx hold
    have hz := (inv.enq x (hnewkeys x hx)).mp hold
    exact ((hn5 x).mp hx).2 hz
  have hzero_persist : ∀ x, s.indegree x = 0 →
      (processFinish g k s t ok).indegree x = 0 := by
    intro x hz
    have h1 := hpre x
    rw [hz] at h1
    have h2 : (dependentsMap g t).count x = 0 := by
      omega
    rw [hindeg' x, hz, h2]
    simp
  have hsplitRN : ∀ x, x ∈ s.ready ++ newly →
      x ∈ (s.ready ++ newly).take n ∨ x ∈ (s.ready ++ newly).drop n := by
    intro x hx2
    have h3 : x ∈ (s.ready ++ newly).take n ++ (s.ready ++ newly).drop n := by
      rw [List.take_append_drop]
      exact hx2
    exact List.mem_append.mp h3
  refine ⟨?_, ?_, ?_, ?_, ?_, ?_, ?_, ?_, ?_⟩
  · intro x hx
    rw [hfin1]
    exact hdeg1 x hx
  · intro x hx
    rw [hindeg' x, inv.nonkey x hx, dependentsMap_count_of_not_mem g t x hx]
    simp
  · intro x hx
    rw [hready'] at hx
    rcases List.mem_append.mp (List.drop_subset _ _ hx) with h | h
    · exact inv.readySub x h
    · exact hnewkeys x h
  · intro x hx
    rw [hrunning'] at hx
    rcases List.mem_append.mp hx with h | h
    · exact inv.runSub x (List.erase_subset _ _ h)
    · rcases List.mem_append.mp (List.take_subset _ _ h) with h2 | h2
      · exact inv.readySub x h2
      · exact hnewkeys x h2
  · intro x hx
    rw [hfin1] at hx
    rcases List.mem_append.mp hx with h | h
    · exact inv.finSub x h
    · rw [List.mem_singleton.mp h]
      exact htkey
  · rw [hready', hrunning', hfin1]
    have hcnt1 : ∀ a : Nat, ((s.ready ++ newly).take n).count a
        + ((s.ready ++ newly).drop n).count a
        = s.ready.count a + newly.count a := by
      intro a
      rw [← List.count_append, List.take_append_drop, List.count_append]
    have hcnt2 : ∀ a : Nat, (s.running.erase t).count a + ([t] : List Nat).count a
        = s.running.count a := by
      intro a
      by_cases hat : a = t
      · subst hat
        rw [List.count_erase_self]
        have hone : ([a] : List Nat).count a = 1 := by simp
        rw [hone]
        have hpos : 0 < s.running.count a := List.count_pos_iff_mem.mpr ht
        omega
      · rw [List.count_erase_of_ne hat]
        have : ([t] : List Nat).count a = 0 := by
          simp [List.count_singleton, hat]
        omega
    have hperm : (((s.ready ++ newly).drop n
          ++ (s.running.erase t ++ (s.ready ++ newly).take n))
          ++ (finishedOf s.trace ++ [t])).Perm
        (newly ++ (s.ready ++ s.running ++ finishedOf s.trace)) := by
      rw [List.perm_iff_count]
      intro a
      simp only [List.count_append]
      have h1 := hcnt1 a
      have h2 := hcnt2 a
      omega
    refine hperm.nodup_iff.mpr ?_
    rw [List.nodup_append]
    refine ⟨hn3, inv.nodupAll, ?_⟩
    intro a ha hA
    refine hnewNotOld a ha ?_
    rcases List.mem_append.mp hA with h | h
    · rcases List.mem_append.mp h with h2 | h2
      · exact Or.inl h2
      · exact Or.inr (Or.inl h2)
    · exact Or.inr (Or.inr h)
  · intro x hx
    rw [hready', hrunning', hfin1]
    have hiff : (x ∈ (s.ready ++ newly).drop n
        ∨ x ∈ s.running.erase t ++ (s.ready ++ newly).take n
        ∨ x ∈ finishedOf s.trace ++ [t])
        ↔ ((x ∈ s.ready ∨ x ∈ s.running ∨ x ∈ finishedOf s.trace) ∨ x ∈ newly) := by
      constructor
      · rintro (h | h | h)
        · rcases List.mem_append.mp (List.drop_subset _ _ h) with h2 | h2
          · exact Or.inl (Or.inl h2)
          · exact Or.inr h2
        · rcases List.mem_append.mp h with h2 | h2
          · exact Or.inl (Or.inr (Or.inl (List.erase_subset _ _ h2)))
          · rcases List.mem_append.mp (List.take_subset _ _ h2) with h3 | h3
            · exact Or.inl (Or.inl h3)
            · exact Or.inr h3
        · rcases List.mem_append.mp h with h2 | h2
          · exact Or.inl (Or.inr (Or.inr h2))
          · rw [List.mem_singleton.mp h2]
            exact Or.inl (Or.inr (Or.inl ht))
      · rintro ((h | h | h) | h)
        · rcases hsplitRN x (List.mem_append.mpr (Or.inl h)) with h2 | h2
          · exact Or.inr (Or.inl (List.mem_append.mpr (Or.inr h2)))
          · exact Or.inl h2
        · by_cases hxt : x = t
          · exact Or.inr (Or.inr (List.mem_append.mpr (Or.inr (by simp [hxt]))))
          · exact Or.inr (Or.inl (List.mem_append.mpr
              (Or.inl (hnodRun.mem_erase_iff.mpr ⟨hxt, h⟩))))
        · exact Or.inr (Or.inr (List.mem_append.mpr (Or.inl h)))
        · rcases hsplitRN x (List.mem_append.mpr (Or.inr h)) with h2 | h2
          · exact Or.inr (Or.inl (List.mem_append.mpr (Or.inr h2)))
          · exact Or.inl h2
    rw [hiff]
    constructor
    · rintro (hold | hnew)
      · exact hzero_persist x ((inv.enq x hx).mp hold)
      · rw [hsi]
        exact ((hn5 x).mp hnew).1
    · intro hz
      by_cases hz0 : s.indegree x = 0
      · exact Or.inl ((inv.enq x hx).mpr hz0)
      · refine Or.inr ((hn5 x).mpr ⟨?_, hz0⟩)
        rw [← hsi]
        exact hz
  · rw [hsu]
    refine backfillGo_length_le k _ _ _ ?_
    have h1 : (s.running.erase t).length = s.running.length - 1 :=
      List.length_erase_of_mem ht
    have h2 := inv.bound
    omega
  · unfold depOK
    rw [htrace]
    rw [depOKAux_append_submits (depsOf g) (s.trace ++ [Event.finish t ok]) []
      ((s.ready ++ newly).take n) ?_]
    · rw [depOKAux_snoc_finish]
      exact inv.ok
    · intro x hx d hd
      refine Or.inl ?_
      rw [finishedOf_append, finishedOf_single_finish]
      rcases List.mem_append.mp (List.take_subset _ _ hx) with h2 | h2
      · have hz : s.indegree x = 0 := (inv.enq x (inv.readySub x h2)).mp (Or.inl h2)
        have hc : (depsOf g x).countP
            (fun d2 => !((finishedOf s.trace).contains d2)) = 0 := by
          have h3 := inv.deg x (inv.readySub x h2)
          rw [hz] at h3
          exact_mod_cast h3.symm
        exact List.mem_append.mpr
          (Or.inl (deps_subset_of_countP_zero _ _ hc d hd))
      · have hxkey := hnewkeys x h2
        have hz : (processFinish g k s t ok).indegree x = 0 := by
          rw [hsi]
          exact ((hn5 x).mp h2).1
        have hc : (depsOf g x).countP
            (fun d2 => !((finishedOf s.trace ++ [t]).contains d2)) = 0 := by
          have h3 := hdeg1 x hxkey
          rw [hz] at h3
          exact_mod_cast h3.symm
        exact deps_subset_of_countP_zero _ _ hc d hd

theorem inv_reachable (g : List (Nat × List Nat)) (k : Nat) (outcome : Nat → Bool)
    (hwf : WFGraph g) (s : PState) (hs : Reachable g k outcome s) : Inv g k s := by
  have hs2 : Relation.ReflTransGen (Step g k outcome) (initState g k) s := hs
  induction hs2 with
  | refl => exact inv_init g k hwf
  | tail hpref hstep ih =>
    cases hstep with
    | finish t2 ht2 => exact inv_step g k hwf _ t2 _ ht2 (ih hpref)

theorem finishedOf_processFinish (g : List (Nat × List Nat)) (k : Nat)
    (s : PState) (t : Nat) (ok : Bool) :
    finishedOf (processFinish g k s t ok).trace = finishedOf s.trace ++ [t] := by
  obtain ⟨n, hb1, hb2, hb3⟩ := backfillGo_split k
    (releaseGo (dependentsMap g t) s.indegree s.ready).2
    (s.running.erase t) (s.trace ++ [Event.finish t ok])
  have hst : (processFinish g k s t ok).trace
      = (backfillGo k (releaseGo (dependentsMap g t) s.indegree s.ready).2
          (s.running.erase t) (s.trace ++ [Event.finish t ok])).2.2 := rfl
  rw [hst, hb3, finishedOf_append, finishedOf_append, finishedOf_submits]
  simp [finishedOf_single_finish]

/-! ## C1 — dependency ordering of `run_parallel` -/

/-- C1: over a well-formed acyclic graph run in parallel with a positive
worker count, in every reachable controller state, every `submit t` event of
the trace is preceded by a `finish d` event for each `d` in `t`'s dependency
list: the worker thread that runs `t` starts only after the submit event,
and each dependency's run has already returned or raised when its finish
event is processed, so no task ever starts before its dependencies have
finished. -/
theorem run_parallel_dependency_ordering
    (g : List (Nat × List Nat)) (k : Nat) (outcome : Nat → Bool)
    (hwf : WFGraph g) (hacyc : AcyclicB g = true) (hk : 0 < k)
    (s : PState) (hs : Reachable g k outcome s)
    (t d : Nat) (hd : d ∈ depsOf g t)
    (i : Nat) (hi : s.trace.get? i = some (Event.submit t)) :
    ∃ j, j < i ∧ ∃ ok2, s.trace.get? j = some (Event.finish d ok2) := by
  have hinv := inv_reachable g k outcome hwf s hs
  have h := depOKAux_positional (depsOf g) s.trace [] hinv.ok i t d hi hd
  rcases h with h | h
  · exact h
  · cases h

/-- Example graph for the parallel-scheduler witnesses: task `1` depends on
task `0`. -/
def exG : List (Nat × List Nat) := [(0, []), (1, [0])]

/-- Witness for C1: after seeding and one completion step on `exG`, the trace
submits task `1` at position 2, and a finish event of its dependency `0`
indeed occurs earlier. -/
theorem run_parallel_dependency_ordering_witness :
    ∃ j, j < 2 ∧ ∃ ok2,
      (processFinish exG 1 (initState exG 1) 0 true).trace.get? j
        = some (Event.finish 0 ok2) :=
  run_parallel_dependency_ordering exG 1 (fun _ => true) (by decide) (by decide)
    (by decide) _
    (Relation.ReflTransGen.single (Step.finish (initState exG 1) 0 (by decide)))
    1 0 (by decide) 2 (by decide)

/-! ## C7 — the in-flight bound of `run_parallel` -/

/-- C7: with `max_workers = k > 0`, every reachable controller state has at
most `k` tasks in flight (submitted but not yet processed as completed): the
seeding loop, the completion processing and the backfill loop all preserve
the bound. -/
theorem run_parallel_inflight_bound
    (g : List (Nat × List Nat)) (k : Nat) (outcome : Nat → Bool)
    (hwf : WFGraph g) (hk : 0 < k)
    (s : PState) (hs : Reachable g k outcome s) :
    s.running.length ≤ k :=
  (inv_reachable g k outcome hwf s hs).bound

/-- Witness for C7 at the seeded initial state of `exG` with one worker. -/
theorem run_parallel_inflight_bound_witness :
    (initState exG 1).running.length ≤ 1 :=
  run_parallel_inflight_bound exG 1 (fun _ => true) (by decide) (by decide) _
    Relation.ReflTransGen.refl

/-! ## C3 — failure isolation in `run_parallel` -/

/-- C3: when a submitted task `t` raises (`outcome t = false`), the controller
catches the exception: processing `t`'s completion is a legal scheduler step;
`t` is counted as completed; the resulting indegree map, ready deque, running
set and completed counter are identical to those after a successful run of
`t`; each registered task's indegree drops by the number of occurrences of
`t` in its dependency list; every task whose indegree thereby reaches zero is
now in the ready deque or already submitted by the backfill; and the run of
the remaining graph continues (a further step exists whenever tasks are
still in flight) instead of aborting. -/
theorem run_parallel_failure_isolated
    (g : List (Nat × List Nat)) (k : Nat) (outcome : Nat → Bool)
    (hwf : WFGraph g) (s : PState) (hs : Reachable g k outcome s)
    (t : Nat) (ht : t ∈ s.running) (hfail : outcome t = false) :
    Step g k outcome s (processFinish g k s t false) ∧
    (processFinish g k s t false).completed = s.completed + 1 ∧
    (processFinish g k s t false).indegree = (processFinish g k s t true).indegree ∧
    (processFinish g k s t false).ready = (processFinish g k s t true).ready ∧
    (processFinish g k s t false).running = (processFinish g k s t true).running ∧
    (processFinish g k s t false).completed = (processFinish g k s t true).completed ∧
    (∀ x ∈ keysOf g, (processFinish g k s t false).indegree x
        = s.indegree x - ((depsOf g x).count t : Int)) ∧
    (∀ x ∈ keysOf g, (processFinish g k s t false).indegree x = 0 →
        s.indegree x ≠ 0 →
        x ∈ (processFinish g k s t false).ready
          ∨ x ∈ (processFinish g k s t false).running) ∧
    ((processFinish g k s t false).running ≠ [] →
        ∃ s2, Step g k outcome (processFinish g k s t false) s2) := by
  have hinv := inv_reachable g k outcome hwf s hs
  have hinv' := inv_step g k hwf s t false ht hinv
  obtain ⟨hnodRR, hnodFin, hdisjRRF⟩ := List.nodup_append.mp hinv.nodupAll
  have htF0 : t ∉ finishedOf s.trace := fun hf =>
    hdisjRRF (List.mem_append.mpr (Or.inr ht)) hf
  have htkey : t ∈ keysOf g := hinv.runSub t ht
  have hstep0 : Step g k outcome s (processFinish g k s t false) := by
    have h := @Step.finish g k outcome s t ht
    rwa [hfail] at h
  have hreadyEq : (processFinish g k s t false).ready
      = (processFinish g k s t true).ready :=
    (backfillGo_trace_indep k (releaseGo (dependentsMap g t) s.indegree s.ready).2
      (s.running.erase t) (s.trace ++ [Event.finish t false])
      (s.trace ++ [Event.finish t true])).1
  have hrunEq : (processFinish g k s t false).running
      = (processFinish g k s t true).running :=
    (backfillGo_trace_indep k (releaseGo (dependentsMap g t) s.indegree s.ready).2
      (s.running.erase t) (s.trace ++ [Event.finish t false])
      (s.trace ++ [Event.finish t true])).2
  refine ⟨hstep0, rfl, rfl, hreadyEq, hrunEq, rfl, ?_, ?_, ?_⟩
  · intro x hx
    rw [hinv'.deg x hx, finishedOf_processFinish, hinv.deg x hx,
      countP_unfinished_snoc (finishedOf s.trace) t htF0 (depsOf g x)]
    push_cast
    ring
  · intro x hx hz hnz
    have henq' := (hinv'.enq x hx).mpr hz
    rcases henq' with h | h | h
    · exact Or.inl h
    · exact Or.inr h
    · exfalso
      rw [finishedOf_processFinish] at h
      rcases List.mem_append.mp h with h2 | h2
      · exact hnz ((hinv.enq x hx).mp (Or.inr (Or.inr h2)))
      · rw [List.mem_singleton.mp h2] at hnz
        exact hnz ((hinv.enq t htkey).mp (Or.inr (Or.inl ht)))
  · intro hne
    cases hrun : (processFinish g k s t false).running with
    | nil => exact absurd hrun hne
    | cons y ys =>
      refine ⟨processFinish g k (processFinish g k s t false) y (outcome y), ?_⟩
      refine Step.finish _ y ?_
      rw [hrun]
      exact List.mem_cons_self y ys

/-- Example graph for the failure-isolation witness: tasks `1` and `2` both
depend on task `0`. -/
def exG3 : List (Nat × List Nat) := [(0, []), (1, [0]), (2, [0])]

/-- Witness for C3 on `exG3` with two workers, where the seeded task `0`
raises: its completion step is legal, releases both dependents and lets the
run continue. -/
theorem run_parallel_failure_isolated_witness :
    Step exG3 2 (fun _ => false) (initState exG3 2)
        (processFinish exG3 2 (initState exG3 2) 0 false) ∧
    (processFinish exG3 2 (initState exG3 2) 0 false).completed
        = (initState exG3 2).completed + 1 ∧
    (processFinish exG3 2 (initState exG3 2) 0 false).indegree
        = (processFinish exG3 2 (initState exG3 2) 0 true).indegree ∧
    (processFinish exG3 2 (initState exG3 2) 0 false).ready
        = (processFinish exG3 2 (initState exG3 2) 0 true).ready ∧
    (processFinish exG3 2 (initState exG3 2) 0 false).running
        = (processFinish exG3 2 (initState exG3 2) 0 true).running ∧
    (processFinish exG3 2 (initState exG3 2) 0 false).completed
        = (processFinish exG3 2 (initState exG3 2) 0 true).completed ∧
    (∀ x ∈ keysOf exG3, (processFinish exG3 2 (initState exG3 2) 0 false).indegree x
        = (initState exG3 2).indegree x - ((depsOf exG3 x).count 0 : Int)) ∧
    (∀ x ∈ keysOf exG3,
        (processFinish exG3 2 (initState exG3 2) 0 false).indegree x = 0 →
        (initState exG3 2).indegree x ≠ 0 →
        x ∈ (processFinish exG3 2 (initState exG3 2) 0 false).ready
          ∨ x ∈ (processFinish exG3 2 (initState exG3 2) 0 false).running) ∧
    ((processFinish exG3 2 (initState exG3 2) 0 false).running ≠ [] →
        ∃ s2, Step exG3 2 (fun _ => false)
          (processFinish exG3 2 (initState exG3 2) 0 false) s2) :=
  run_parallel_failure_isolated exG3 2 (fun _ => false) (by decide) _
    Relation.ReflTransGen.refl 0 (by decide) rfl

end Engine
